import Mathlib

/-!
Shallow embedding of the cs-solution-analyzer core (src/src/lib) and proofs
about the claims of its specification.

The embedding translates, from the Python source:
  * the identifier model (src/src/lib/id.py, as used by the lib/project package:
    the three-argument AssemblyId of src/src/id.py);
  * the condition evaluator (src/src/lib/project/parse_condition.py);
  * the project parser (src/src/lib/project/project.py);
  * the memoized registry (src/src/lib/project/registry.py);
  * the project-set aggregation loop (src/src/lib/project/set.py);
  * the topological sort (src/src/lib/solution.py, Solution.topsort).

Filesystem access, Windows path normalization and XML parsing are external
effects; they are modelled by an explicit environment (`Env`) holding the
file map and uninterpreted path operations, and by a datatype (`XmlDoc`)
holding the already-parsed element structure that the Python code reads
through xml.dom.minidom (tag names, Condition and Include attributes, child
elements, concatenated text content as read by _get_xml_text).
-/

deriving instance DecidableEq for Except

namespace CsSol

/-- ProjectId (src/src/lib/id.py): structural identity on (name, path). -/
structure ProjectId where
  name : String
  path : String
deriving DecidableEq

/-- Guid (src/src/lib/id.py): the constructor upper-cases the raw string;
equality and hash are on the normalized form.  `Guid.make` performs the
normalization (ASCII model of Python str.upper). -/
structure Guid where
  raw : String
deriving DecidableEq

/-- ASCII upper-casing of one character, the model of Python str.upper
restricted to ASCII (the GUID alphabet). -/
def charUpper (c : Char) : Char :=
  if 'a' ≤ c ∧ c ≤ 'z' then Char.ofNat (c.toNat - 32) else c

/-- Upper-case a string character by character. -/
def strUpper (s : String) : String :=
  String.mk (s.data.map charUpper)

/-- Guid construction: Guid.__init__ stores raw.upper(). -/
def Guid.make (s : String) : Guid := ⟨strUpper s⟩

/-- AssemblyId (src/src/id.py, the three-field variant imported by the
lib/project package): name, optional path, nuget flag; equality compares
all three fields. -/
structure AssemblyId where
  name : String
  path : Option String
  is_nuget_assembly : Bool
deriving DecidableEq

/-- SourceId (src/src/lib/id.py): (name, path). -/
structure SourceId where
  name : String
  path : String
deriving DecidableEq

/-!  Association lists: the model of Python dict (insertion-ordered,
assignment updates in place) used for every dict in the source.  -/

section Assoc

variable {α β : Type} [DecidableEq α]

/-- Lookup in an insertion-ordered association list (Python `d[k]` /
`k in d`). -/
def aLookup : List (α × β) → α → Option β
  | [], _ => none
  | (k', v) :: rest, k => if k' = k then some v else aLookup rest k

/-- Assignment `d[k] = v`: update in place if the key exists, else append. -/
def aSet : List (α × β) → α → β → List (α × β)
  | [], k, v => [(k, v)]
  | (k', v') :: rest, k, v =>
      if k' = k then (k', v) :: rest else (k', v') :: aSet rest k v

/-- Deletion `del d[k]` / `d.pop(k)` (key assumed present by the caller,
as in the source). -/
def aRemove : List (α × β) → α → List (α × β)
  | [], _ => []
  | (k', v) :: rest, k => if k' = k then rest else (k', v) :: aRemove rest k

end Assoc

/-!  MultiMap (src/src/lib/multimap.py): dict from key to a set of values,
modelled as an insertion-ordered association list whose value lists are
deduplicating (add appends a value only when absent).  -/

section MMap

variable {α β : Type} [DecidableEq α] [DecidableEq β]

/-- MultiMap.add. -/
def mmAdd : List (α × List β) → α → β → List (α × List β)
  | [], k, v => [(k, [v])]
  | (k', vs) :: rest, k, v =>
      if k' = k then (k', if v ∈ vs then vs else vs ++ [v]) :: rest
      else (k', vs) :: mmAdd rest k v

/-- MultiMap.has_key (`key in m`). -/
def mmHasKey (m : List (α × List β)) (k : α) : Bool :=
  (aLookup m k).isSome

end MMap

/-!  Condition evaluator (src/src/lib/project/parse_condition.py).

The module compiles four concrete regular expressions (no_config,
just_config, just_platform, combined) from the grammar-building helpers; the
function parse_condition tries just_config, just_platform and combined in
that order with re.match (anchored at the start only, trailing input
ignored) and returns the inputs unchanged when none matches.  no_config is
compiled but never used by parse_condition.

The regexes consist of literal runs, `\s*` gaps and one alternation over a
fixed token list whose members are pairwise non-prefixes of each other, so
a first-match scan over the token list is equivalent to the regex
backtracking semantics.  -/

/-- Python `\s` on the ASCII range. -/
def isSpaceChar (c : Char) : Bool :=
  c = ' ' || c = '\t' || c = '\n' || c = '\x0d' || c = '\x0b' || c = '\x0c'

/-- Consume `\s*`. -/
def dropSpaces : List Char → List Char
  | [] => []
  | c :: cs => if isSpaceChar c then dropSpaces cs else c :: cs

/-- Consume an exact literal, returning the rest of the input. -/
def dropLit : List Char → List Char → Option (List Char)
  | [], cs => some cs
  | _, [] => none
  | l :: ls, c :: cs => if l = c then dropLit ls cs else none

/-- First token of the alternation that is a prefix of the input (the
token list being prefix-free, at most one can be). -/
def matchAlt : List String → List Char → Option (String × List Char)
  | [], _ => none
  | t :: rest, cs =>
      match dropLit t.data cs with
      | some cs' => some (t, cs')
      | none => matchAlt rest cs

/-- config_types of parse_condition.py: the four base names plus the
NET20/NET35/NET40 Debug/Release variants, in construction order. -/
def configTokens : List String :=
  ["Debug", "Release", "Setup", "Retail",
   "NET20Debug", "NET20Release",
   "NET35Debug", "NET35Release",
   "NET40Debug", "NET40Release"]

/-- Platform alternation: AnyCPU | x86. -/
def platformTokens : List String := ["AnyCPU", "x86"]

/-- re.match against just_config:
whitespace, quoted Configuration variable, `==`, quoted config token. -/
def matchJustConfig (cs : List Char) : Option String := do
  let cs := dropSpaces cs
  let cs ← dropLit "'$(Configuration)'".data cs
  let cs := dropSpaces cs
  let cs ← dropLit "==".data cs
  let cs := dropSpaces cs
  let cs ← dropLit "'".data cs
  let (tok, cs) ← matchAlt configTokens cs
  let _ ← dropLit "'".data cs
  pure tok

/-- re.match against just_platform. -/
def matchJustPlatform (cs : List Char) : Option String := do
  let cs := dropSpaces cs
  let cs ← dropLit "'$(Platform)'".data cs
  let cs := dropSpaces cs
  let cs ← dropLit "==".data cs
  let cs := dropSpaces cs
  let cs ← dropLit "'".data cs
  let (tok, cs) ← matchAlt platformTokens cs
  let _ ← dropLit "'".data cs
  pure tok

/-- re.match against combined: quoted Configuration|Platform variable pair
against a quoted config|platform token pair. -/
def matchCombined (cs : List Char) : Option (String × String) := do
  let cs := dropSpaces cs
  let cs ← dropLit "'$(Configuration)|$(Platform)'".data cs
  let cs := dropSpaces cs
  let cs ← dropLit "==".data cs
  let cs := dropSpaces cs
  let cs ← dropLit "'".data cs
  let (ctok, cs) ← matchAlt configTokens cs
  let cs ← dropLit "|".data cs
  let (ptok, cs) ← matchAlt platformTokens cs
  let _ ← dropLit "'".data cs
  pure (ctok, ptok)

/-- parse_condition(text, configuration=None, platform=None): try
just_config, then just_platform, then combined; on a match overwrite the
captured slot(s); otherwise return the inputs unchanged.  Total by
construction. -/
def parse_condition (text : String)
    (configuration : Option String := none)
    (platform : Option String := none) :
    Option String × Option String :=
  match matchJustConfig text.data with
  | some tok => (some tok, platform)
  | none =>
      match matchJustPlatform text.data with
      | some tok => (configuration, some tok)
      | none =>
          match matchCombined text.data with
          | some (c, p) => (some c, some p)
          | none => (configuration, platform)

/-!  Model of the parsed XML a project file yields.

xml.dom.minidom exposes the element tree; the Python code only ever reads
it through getElementsByTagName (all descendants with a tag, in document
order), hasAttribute/getAttribute, element children in order, and
_get_xml_text (concatenated text content).  XmlDoc therefore records, per
relevant tag, the list of elements in document order with exactly the
attributes and children the code inspects.  rootTag records the document
element's tag; the code never looks at it (relevant to the Incompatible
classification claims).  -/

/-- One element child of a PropertyGroup: tag name, optional Condition
attribute and text content. -/
structure PChild where
  tag : String
  cond : Option String
  text : String
deriving DecidableEq

/-- One PropertyGroup element: optional Condition attribute and element
children in document order. -/
structure PropGroup where
  cond : Option String
  children : List PChild
deriving DecidableEq

/-- Element children of a Reference node that _load_assembly_ref inspects:
NuGetPackageId or HintPath (with text content), anything else ignored. -/
inductive ARChild
  | nuget (text : String)
  | hint (text : String)
  | other
deriving DecidableEq

/-- One Reference element: optional Include attribute, children in order,
optional HintPath attribute. -/
structure AssemblyRefElem where
  includeAttr : Option String
  children : List ARChild
  hintAttr : Option String
deriving DecidableEq

/-- One ProjectReference element: optional Include attribute, text of the
first Name child and of the first Project child if present (the code keeps
only the first of each). -/
structure ProjectRefElem where
  includeAttr : Option String
  nameChild : Option String
  guidChild : Option String
deriving DecidableEq

/-- One Compile element: optional Include attribute. -/
structure CompileElem where
  includeAttr : Option String
deriving DecidableEq

/-- The parsed project document. -/
structure XmlDoc where
  rootTag : String
  propGroups : List PropGroup
  assemblyRefs : List AssemblyRefElem
  projectRefs : List ProjectRefElem
  compileElems : List CompileElem
deriving DecidableEq

/-- State of one path on disk: absent, or present; a present file either
fails xml.parse (ExpatError) or parses to a document. -/
inductive FileNode
  | absent
  | present (doc : Option XmlDoc)
deriving DecidableEq

/-- The external world: the file map, and the path toolkit
(util.normalize_windows_relpath, util.normalize_windows_path,
pathlib's .parent, .stem and .name) kept uninterpreted, since the claims
under verification do not depend on the host path semantics.  `dirOf` is
.parent, `normRel ctx p` is normalize_windows_relpath(ctx, p), `normPath`
is normalize_windows_path, `stemOf`/`nameOf` are .stem/.name applied to an
already-normalized path. -/
structure Env where
  file : String → FileNode
  dirOf : String → String
  normRel : String → String → String
  normPath : String → String
  stemOf : String → String
  nameOf : String → String

/-- Path.exists(): the path is not absent. -/
def fileExists (env : Env) (p : String) : Bool :=
  match env.file p with
  | .absent => false
  | .present _ => true

/-- Exceptions the modelled code can raise.  runtimeError stands for the
RuntimeError integrity faults (message text elided); expatError for the
xml.parse failure on an existing but unparseable file; attributeError for
an attribute lookup that finds no such attribute on the object. -/
inductive PyErr
  | attributeError
  | expatError
  | runtimeError
deriving DecidableEq

/-- ProjectLoadResult (src/src/lib/project/project.py).  The source file
defines only Ok, Dangling and Cycle; registry.py, set.py and solution.py
additionally import and match a ProjectLoadIncompatible that project.py
never defines (importing those modules raises ImportError).  The
constructor is included here so that the registry/set/solution code
translates as written; no loader constructs it. -/
inductive LoadResult (α : Type)
  | ok (project : α)
  | dangling (backtrace : List ProjectId)
  | incompatible (backtrace : List ProjectId)
  | cycle (backtrace : List ProjectId)
deriving DecidableEq

/-- Project (src/src/lib/project/project.py): id, project-reference
multimap (ProjectId to the set of GUIDs it was referenced under), the
nested assembly dict (name, then optional path, to AssemblyId), the
source dict (path to SourceId) and the property table. -/
structure Project where
  project_id : ProjectId
  project_ref_ids : List (ProjectId × List Guid)
  assembly_ref_ids : List (String × List (Option String × AssemblyId))
  source_ref_ids : List (String × SourceId)
  props : List (String × String)
deriving DecidableEq

/-- project_refs(): the keys view of the reference multimap, in insertion
order. -/
def Project.project_refs (p : Project) : List ProjectId :=
  p.project_ref_ids.map Prod.fst

/-- assembly_refs(): iterate the outer dict's values, then each inner
dict's values, in insertion order. -/
def Project.assembly_refs (p : Project) : List AssemblyId :=
  (p.assembly_ref_ids.map (fun e => e.2.map Prod.snd)).flatten

/-- The Project class defines no method named output; the attribute lookup
in ProjectSet.add (`project.output()`) therefore raises AttributeError.
The result type is the Option AssemblyId the call site expects. -/
def Project.output (_ : Project) : Except PyErr (Option AssemblyId) :=
  .error .attributeError

/-!  Property-group evaluation (Project._load_props).  -/

/-- match_env inside Project._load_props: a captured value of None always
matches; otherwise the key must be present in the table with that exact
value. -/
def matchEnvOpt (key : String) (value : Option String)
    (props : List (String × String)) : Bool :=
  match value with
  | none => true
  | some v => aLookup props key = some v

/-- match_condition inside Project._load_props: no Condition attribute
always matches; otherwise parse_condition is called with default (None,
None) inputs and both captured slots must match the current table. -/
def matchCondition (cond : Option String)
    (props : List (String × String)) : Bool :=
  match cond with
  | none => true
  | some c =>
      let cp := parse_condition c
      matchEnvOpt "Configuration" cp.1 props &&
      matchEnvOpt "Platform" cp.2 props

/-- One element child of a matching property group: Configuration and
Platform children re-check their own Condition against the current table;
any other tag is stored verbatim (its Condition attribute, if any, is
ignored by the code). -/
def applyChild (props : List (String × String)) (ch : PChild) :
    List (String × String) :=
  if ch.tag = "Configuration" then
    if matchCondition ch.cond props then aSet props "Configuration" ch.text
    else props
  else if ch.tag = "Platform" then
    if matchCondition ch.cond props then aSet props "Platform" ch.text
    else props
  else aSet props ch.tag ch.text

/-- One property group: skipped entirely unless its Condition matches the
table accumulated so far. -/
def applyGroup (props : List (String × String)) (g : PropGroup) :
    List (String × String) :=
  if matchCondition g.cond props then g.children.foldl applyChild props
  else props

/-- Project._load_props: seed Configuration/Platform from the registry
config, then fold the property groups in document order. -/
def loadProps (config : List (String × String)) (doc : XmlDoc) :
    List (String × String) :=
  let props : List (String × String) := []
  let props := match aLookup config "Configuration" with
    | some v => aSet props "Configuration" v
    | none => props
  let props := match aLookup config "Platform" with
    | some v => aSet props "Platform" v
    | none => props
  doc.propGroups.foldl applyGroup props

/-!  Assembly references (Project._load_assembly_ref et al.).  -/

/-- Leading-substitution test (_path_has_leading_subst): the path starts
with a dollar sign, an opening parenthesis, and a closing parenthesis
occurs later. -/
def pathHasLeadingSubst (s : String) : Bool :=
  match s.data with
  | c1 :: c2 :: rest =>
      c1 = '$' && c2 = '(' && !(rest.dropWhile (fun c => c ≠ ')')).isEmpty
  | _ => false

/-- The assembly-name regex `\s*(?P<name>[^\s,]*)\s*,?` applied with
re.match: skip leading whitespace, take the maximal run of characters that
are neither whitespace nor a comma.  The regex always matches, so the
RuntimeError branch of the source is unreachable. -/
def parseAssemblyName (s : String) : String :=
  String.mk ((dropSpaces s.data).takeWhile (fun c => !(isSpaceChar c) && c ≠ ','))

/-- Suffix test on character lists (str.endswith). -/
def endsWithChars (l suf : List Char) : Bool :=
  (l.reverse.take suf.length) = suf.reverse

/-- Project._normalize_relpath followed by the leading-substitution escape
hatch of _load_assembly_ref: a path starting with a substitution token is
normalized on its own, otherwise joined to the project's directory. -/
def resolveRefPath (env : Env) (projPath p : String) : String :=
  if pathHasLeadingSubst p then env.normPath p
  else env.normRel (env.dirOf projPath) p

/-- Project._load_assembly_ref.  Returns none when the Include attribute
is missing.  Children are folded in document order: a NuGetPackageId child
(with no path seen yet) moves the Include value into the path slot and the
child text into the name; a HintPath child fills an empty path slot.  For
non-nuget references the name is the leading comma-separated field; an
empty path falls back to the HintPath attribute, then to reinterpreting a
name ending in .dll as the path (the new name being the normalized path's
stem). -/
def loadAssemblyRef (env : Env) (id : ProjectId) (elem : AssemblyRefElem) :
    Option AssemblyId :=
  match elem.includeAttr with
  | none => none
  | some inc =>
      let st0 : Bool × String × Option String := (false, inc, none)
      let st := elem.children.foldl
        (fun st ch =>
          match ch with
          | .nuget txt =>
              match st.2.2 with
              | none => (true, txt, some st.2.1)
              | some _ => st
          | .hint txt =>
              match st.2.2 with
              | none => (st.1, st.2.1, some txt)
              | some _ => st
          | .other => st)
        st0
      let is_nuget := st.1
      let name := st.2.1
      let path := st.2.2
      let (name, path) :=
        if is_nuget then (name, path)
        else
          let name := parseAssemblyName name
          match path with
          | some _ => (name, path)
          | none =>
              match elem.hintAttr with
              | some h => (name, some h)
              | none =>
                  if endsWithChars name.data ".dll".data then
                    (env.stemOf (env.normPath name), some name)
                  else (name, none)
      let path := path.map (resolveRefPath env id.path)
      some ⟨name, path, is_nuget⟩

/-- Project._add_assembly_id: nested dict insert keyed by name then path;
an existing entry with the same (name, path) but a different AssemblyId
value raises RuntimeError. -/
def addAssemblyId (m : List (String × List (Option String × AssemblyId)))
    (a : AssemblyId) :
    Except PyErr (List (String × List (Option String × AssemblyId))) :=
  match aLookup m a.name with
  | none => .ok (m ++ [(a.name, [(a.path, a)])])
  | some inner =>
      match aLookup inner a.path with
      | none => .ok (aSet m a.name (inner ++ [(a.path, a)]))
      | some present =>
          if present = a then .ok m else .error .runtimeError

/-- Project._load_assembly_refs: fold all Reference elements. -/
def loadAssemblyRefs (env : Env) (id : ProjectId) (doc : XmlDoc) :
    Except PyErr (List (String × List (Option String × AssemblyId))) :=
  doc.assemblyRefs.foldlM
    (fun m elem =>
      match loadAssemblyRef env id elem with
      | none => .ok m
      | some a => addAssemblyId m a)
    []

/-!  Project references (Project._load_project_ref(s)).  -/

/-- Strip all leading opening braces and trailing closing braces from the
GUID text (str.lstrip / str.rstrip with a one-character set). -/
def stripBraces (s : String) : String :=
  let obr := Char.ofNat 0x7b
  let cbr := Char.ofNat 0x7d
  String.mk
    (((s.data.dropWhile (fun c => c = obr)).reverse.dropWhile
        (fun c => c = cbr)).reverse)

/-- Project._load_project_ref: requires the Include attribute and both a
Name and a Project child; otherwise the reference is silently dropped.
The GUID is brace-stripped and case-normalized; the path is the Include
attribute joined to the project directory.  The registry argument of the
source is unused: the function parses the declaration and never loads the
referenced project (its ProjectLoadOk wrapper is unwrapped by the caller;
the Dangling/Cycle branches of _load_project_refs are unreachable). -/
def loadProjectRef (env : Env) (id : ProjectId) (elem : ProjectRefElem) :
    Option (Guid × ProjectId) :=
  match elem.includeAttr with
  | none => none
  | some inc =>
      match elem.nameChild, elem.guidChild with
      | some name, some guid =>
          some (Guid.make (stripBraces guid),
                ⟨name, env.normRel (env.dirOf id.path) inc⟩)
      | _, _ => none

/-- Project._load_project_refs: fold all ProjectReference elements into
the reference multimap (Project._add_project_id). -/
def loadProjectRefs (env : Env) (id : ProjectId) (doc : XmlDoc) :
    List (ProjectId × List Guid) :=
  doc.projectRefs.foldl
    (fun m elem =>
      match loadProjectRef env id elem with
      | none => m
      | some (guid, pid) => mmAdd m pid guid)
    []

/-!  Source references (Project._load_source_ref(s)).  -/

/-- Split a character list at semicolons. -/
def splitSemis : List Char → List (List Char)
  | [] => [[]]
  | c :: cs =>
      let rest := splitSemis cs
      if c = ';' then [] :: rest
      else
        match rest with
        | [] => [[c]]
        | l :: ls => (c :: l) :: ls

/-- str.strip(): drop whitespace from both ends. -/
def trimChars (l : List Char) : List Char :=
  ((l.dropWhile isSpaceChar).reverse.dropWhile isSpaceChar).reverse

/-- Project._load_source_ref: the Include attribute may hold a
semicolon-separated list of paths; each nonempty trimmed item is
normalized against the project directory and named by its final
component. -/
def loadSourceRef (env : Env) (id : ProjectId) (elem : CompileElem) :
    Option (List SourceId) :=
  match elem.includeAttr with
  | none => none
  | some inc =>
      let sources := (splitSemis inc.data).foldl
        (fun acc item =>
          let ps := trimChars item
          if ps.isEmpty then acc
          else
            let path := env.normRel (env.dirOf id.path) (String.mk ps)
            acc ++ [(⟨env.nameOf path, path⟩ : SourceId)])
        []
      if sources.length ≤ 0 then none else some sources

/-- Project._add_source_id: dict insert keyed by path; an existing entry
with a different SourceId raises RuntimeError. -/
def addSourceId (m : List (String × SourceId)) (s : SourceId) :
    Except PyErr (List (String × SourceId)) :=
  match aLookup m s.path with
  | none => .ok (m ++ [(s.path, s)])
  | some present => if present = s then .ok m else .error .runtimeError

/-- Project._load_source_refs: fold all Compile elements. -/
def loadSourceRefs (env : Env) (id : ProjectId) (doc : XmlDoc) :
    Except PyErr (List (String × SourceId)) :=
  doc.compileElems.foldlM
    (fun m elem =>
      match loadSourceRef env id elem with
      | none => .ok m
      | some srcs => srcs.foldlM addSourceId m)
    []

/-!  Project.load / Project._load.

Project.load returns Dangling before any parse attempt when the file does
not exist; otherwise _load parses the XML (ExpatError propagates as an
exception), loads properties, assembly references, project references and
source references in that order, and returns Ok.  Nothing inspects the
document's root tag, and no path produces Incompatible.  The Boolean part
of the result records whether xml.parse was invoked (the parse counter
instrumentation the specification's idempotence property asks for).  -/
def projectLoad (env : Env) (config : List (String × String))
    (id : ProjectId) : Except PyErr (LoadResult Project) × Bool :=
  match env.file id.path with
  | .absent => (.ok (.dangling [id]), false)
  | .present none => (.error .expatError, true)
  | .present (some doc) =>
      let props := loadProps config doc
      match loadAssemblyRefs env id doc with
      | .error e => (.error e, true)
      | .ok asm =>
          let refs := loadProjectRefs env id doc
          match loadSourceRefs env id doc with
          | .error e => (.error e, true)
          | .ok srcs =>
              (.ok (.ok ⟨id, refs, asm, srcs, props⟩), true)

/-!  ProjectRegistry (src/src/lib/project/registry.py).  -/

/-- Registry state: the three terminal identity collections, the transient
loading set, the seed config, and the parse counter instrumentation. -/
structure RegState where
  complete : List (ProjectId × Project)
  dangling : List ProjectId
  incompatible : List ProjectId
  loading : List ProjectId
  config : List (String × String)
  parses : Nat
deriving DecidableEq

/-- A fresh registry (ProjectRegistry.__init__). -/
def initReg (config : List (String × String) := []) : RegState :=
  ⟨[], [], [], [], config, 0⟩

/-- The tail of ProjectRegistry.load after Project.load returned: the
finally block has removed the id from the loading set again (the filter
over the set the add produced), the parse counter counts the parse attempt
if one happened, and the result is cached and returned with the id
appended to its backtrace (an exception propagates with the state mutated
so far). -/
def regFinish (st : RegState) (id : ProjectId)
    (r : Except PyErr (LoadResult Project) × Bool) :
    Except PyErr (LoadResult Project) × RegState :=
  let st2 := { st with
    loading := (st.loading ++ [id]).filter (fun x => x ≠ id),
    parses := st.parses + (if r.2 then 1 else 0) }
  match r.1 with
  | .error e => (.error e, st2)
  | .ok (.ok p) =>
      (.ok (.ok p), { st2 with complete := st2.complete ++ [(id, p)] })
  | .ok (.dangling bt) =>
      (.ok (.dangling (bt ++ [id])),
       { st2 with dangling := st2.dangling ++ [id] })
  | .ok (.incompatible bt) =>
      (.ok (.incompatible (bt ++ [id])),
       { st2 with incompatible := st2.incompatible ++ [id] })
  | .ok (.cycle bt) => (.ok (.cycle (bt ++ [id])), st2)

/-- ProjectRegistry.load: cached classifications return immediately; a
project already in the transient loading set yields Cycle [id]; otherwise
the id is added to the loading set, Project.load runs (observing only the
registry config), the finally block removes the id again whether or not
the load raised, and regFinish caches and returns the result. -/
def registryLoad (env : Env) (st : RegState) (id : ProjectId) :
    Except PyErr (LoadResult Project) × RegState :=
  match aLookup st.complete id with
  | some p => (.ok (.ok p), st)
  | none =>
      if id ∈ st.dangling then (.ok (.dangling [id]), st)
      else if id ∈ st.incompatible then (.ok (.incompatible [id]), st)
      else if id ∈ st.loading then (.ok (.cycle [id]), st)
      else regFinish st id (projectLoad env st.config id)

/-- Fold a sequence of further load calls over the registry, keeping only
the states. -/
def loadMany (env : Env) : RegState → List ProjectId → RegState
  | st, [] => st
  | st, q :: qs => loadMany env (registryLoad env st q).2 qs

/-!  ProjectSet (src/src/lib/project/set.py).

__init__ assigns _outputs_by_project, _projects_by_output,
_projects_sans_output and _duplicate_outputs; the class-level annotations
additionally name _output_by_project and _project_by_output, which no code
ever assigns, yet the accessors outputs(), projects_by_output() and
outputs_by_project() read exactly those two: every call to them raises
AttributeError.  The state below holds the attributes that are actually
created.  -/

/-- ProjectSet state. -/
structure SetState where
  reg : RegState
  parents : List (ProjectId × List ProjectId)
  cyclic : List ProjectId
  assemblyDangling : List (ProjectId × List AssemblyId)
  sourceDangling : List (ProjectId × List SourceId)
  outputsByProject : List (ProjectId × AssemblyId)
  projectsByOutput : List (AssemblyId × ProjectId)
  sansOutput : List ProjectId
  duplicateOutputs : List (AssemblyId × List ProjectId)
deriving DecidableEq

/-- A fresh project set (ProjectSet.__init__; the inner registry gets no
config). -/
def initSet : SetState :=
  ⟨initReg, [], [], [], [], [], [], [], []⟩

/-- The body of ProjectSet.add run on the popped id once the skip check
has failed and the registry returned Ok: record parent edges and push the
referenced ids, record dangling assembly references, then attempt output
derivation (which raises AttributeError, Project.output being absent; the
collision bookkeeping below the call is translated nevertheless and is
dead code).  Returns the mutated state, the new traversal stack, and the
error if one was raised. -/
def addOkBody (env : Env) (st : SetState) (id : ProjectId) (p : Project)
    (rest : List ProjectId) :
    SetState × List ProjectId × Option PyErr :=
  let subs := p.project_refs
  let parents := subs.foldl (fun m s => mmAdd m s p.project_id) st.parents
  let stack := subs.reverse ++ rest
  let asmD := p.assembly_refs.foldl
    (fun m a =>
      match a.path with
      | some pa => if fileExists env pa then m else mmAdd m id a
      | none => m)
    st.assemblyDangling
  let st := { st with parents := parents, assemblyDangling := asmD }
  match Project.output p with
  | .error e => (st, stack, some e)
  | .ok none => ({ st with sansOutput := st.sansOutput ++ [id] }, stack, none)
  | .ok (some output) =>
      if mmHasKey st.duplicateOutputs output then
        ({ st with duplicateOutputs := mmAdd st.duplicateOutputs output id },
         stack, none)
      else
        match aLookup st.projectsByOutput output with
        | some dupId =>
            ({ st with
               projectsByOutput := aRemove st.projectsByOutput output,
               outputsByProject := aRemove st.outputsByProject dupId,
               duplicateOutputs :=
                 mmAdd (mmAdd st.duplicateOutputs output id) output dupId },
             stack, none)
        | none =>
            ({ st with
               projectsByOutput := aSet st.projectsByOutput output id,
               outputsByProject := aSet st.outputsByProject id output },
             stack, none)

/-- ProjectSet.add's while loop.  The Python stack pops from the tail; the
list here is kept reversed, so the head is the next id to pop and pushing
the references of a loaded project prepends them in reverse.  The fuel
argument bounds the number of iterations; with fuel at least the number of
loop iterations the Python loop performs, the two agree (running out of
fuel returns the state reached so far).  On an exception the state
mutations already performed persist and the error is reported. -/
def addLoop (env : Env) : Nat → SetState → List ProjectId →
    SetState × Option PyErr
  | 0, st, _ => (st, none)
  | _ + 1, st, [] => (st, none)
  | fuel + 1, st, id :: rest =>
      if (aLookup st.reg.complete id).isSome = true ∨ id ∈ st.reg.dangling ∨
          id ∈ st.reg.incompatible ∨ id ∈ st.cyclic then
        addLoop env fuel st rest
      else
        match registryLoad env st.reg id with
        | (.error e, reg') => ({ st with reg := reg' }, some e)
        | (.ok (.ok p), reg') =>
            let (st', stack', err) :=
              addOkBody env { st with reg := reg' } id p rest
            match err with
            | some e => (st', some e)
            | none => addLoop env fuel st' stack'
        | (.ok (.dangling _), reg') =>
            addLoop env fuel { st with reg := reg' } rest
        | (.ok (.incompatible _), reg') =>
            addLoop env fuel { st with reg := reg' } rest
        | (.ok (.cycle _), reg') =>
            addLoop env fuel
              { st with reg := reg', cyclic := st.cyclic ++ [id] } rest

/-- A sequence of ProjectSet.add calls: each call starts a fresh stack
holding its seed; state mutations persist across calls even when a call
raised. -/
def addMany (env : Env) (fuel : Nat) : SetState → List ProjectId → SetState
  | st, [] => st
  | st, s :: ss => addMany env fuel (addLoop env fuel st [s]).1 ss

/-- ProjectSet.dangling_sources(): a view of _source_dangling, which
__init__ creates and nothing ever writes to. -/
def dangling_sources (st : SetState) : List (ProjectId × List SourceId) :=
  st.sourceDangling

/-- ProjectSet.projects_by_output(): reads self._project_by_output, an
attribute that is declared in the class annotations but never assigned
(init assigns _projects_by_output instead), so the call raises
AttributeError. -/
def projects_by_output (_ : SetState) :
    Except PyErr (List (AssemblyId × ProjectId)) :=
  .error .attributeError

/-- ProjectSet.outputs_by_project(): reads the likewise never-assigned
self._output_by_project and raises AttributeError. -/
def outputs_by_project (_ : SetState) :
    Except PyErr (List (ProjectId × AssemblyId)) :=
  .error .attributeError

/-- ProjectSet.duplicate_outputs(): a view of _duplicate_outputs (which
init does create). -/
def duplicate_outputs (st : SetState) : List (AssemblyId × List ProjectId) :=
  st.duplicateOutputs

/-!  Solution.topsort (src/src/lib/solution.py).

topsort reads the solution's registry only through `complete` (from which
it takes each project's project_refs()), `dangling` and `incompatible`,
plus the root set; SolGraph records exactly those projections.  The
traversal state is the marks dict and the output list.  Fuel bounds the
recursion depth of visit; running out is reported as a distinct outcome,
never silently conflated with a real one.  -/

/-- The explicit project-reference graph over which topsort runs. -/
structure SolGraph where
  complete : List (ProjectId × List ProjectId)
  dangling : List ProjectId
  incompatible : List ProjectId
  roots : List ProjectId
deriving DecidableEq

/-- The three-color mark of topsort: marks.get defaults to WHITE, which is
never stored, so an absent dict entry is White and only Grey and Black
need representing. -/
inductive Mark
  | grey
  | black
deriving DecidableEq

/-- Traversal state of topsort: the marks dict and the postorder output
list. -/
structure TState where
  marks : List (ProjectId × Mark)
  output : List ProjectId
deriving DecidableEq

/-- marks.get(project_id, Mark.WHITE), with absence standing for White. -/
def getMark (st : TState) (id : ProjectId) : Option Mark :=
  aLookup st.marks id

/-- marks[project_id] = m. -/
def setMark (st : TState) (id : ProjectId) (m : Mark) : TState :=
  { st with marks := aSet st.marks id m }

/-- output.append(project_id). -/
def pushOut (st : TState) (id : ProjectId) : TState :=
  { st with output := st.output ++ [id] }

/-- Outcome of one visit call: normal return (None), a cycle backtrace, the
KeyError of `complete[project_id]` on an unclassified id, or fuel
exhaustion. -/
inductive VisitOut
  | okNone
  | cycleFound (path : List ProjectId)
  | errKey
  | errFuel
deriving DecidableEq

/-- Result of topsort: the Python (True, order) / (False, path) pair plus
the two abnormal outcomes. -/
inductive TopResult
  | success (order : List ProjectId)
  | cyclic (path : List ProjectId)
  | raisedKeyError
  | fuelOut
deriving DecidableEq

/-- The loop over a project's references inside visit, parameterized by
the recursive visit of the next depth; when the loop ends, the id is
marked Black and appended.  A non-None child result gets the id appended
to the backtrace (result.append(project_id)); the abnormal outcomes
propagate unchanged. -/
def visitList (rec : ProjectId → TState → VisitOut × TState) :
    List ProjectId → ProjectId → TState → VisitOut × TState
  | [], id, st => (.okNone, pushOut (setMark st id .black) id)
  | sub :: rest, id, st =>
      match rec sub st with
      | (.okNone, st') => visitList rec rest id st'
      | (.cycleFound l, st') => (.cycleFound (l ++ [id]), st')
      | (out, st') => (out, st')

/-- The recursive visit of Solution.topsort: Grey returns a fresh
single-element backtrace, Black returns None; a dangling or incompatible
id is a leaf (marked Black and appended); otherwise the id is marked Grey,
its project is fetched from complete (KeyError if absent) and its
references are visited in order. -/
def visit (g : SolGraph) : Nat → ProjectId → TState → VisitOut × TState
  | 0, _, st => (.errFuel, st)
  | Nat.succ fuel, id, st =>
      match getMark st id with
      | some .grey => (.cycleFound [id], st)
      | some .black => (.okNone, st)
      | none =>
          if id ∈ g.dangling ∨ id ∈ g.incompatible then
            (.okNone, pushOut (setMark st id .black) id)
          else
            let st1 := setMark st id .grey
            match aLookup g.complete id with
            | none => (.errKey, st1)
            | some refs => visitList (visit g fuel) refs id st1

/-- The loop over the solution roots: a non-None visit result gets the
root appended once more, is reversed and returned with False; on normal
completion the output list is reversed and returned with True. -/
def topsortRoots (g : SolGraph) (fuel : Nat) :
    List ProjectId → TState → TopResult
  | [], st => .success st.output.reverse
  | r :: rest, st =>
      match visit g fuel r st with
      | (.okNone, st') => topsortRoots g fuel rest st'
      | (.cycleFound l, _) => .cyclic ((l ++ [r]).reverse)
      | (.errKey, _) => .raisedKeyError
      | (.errFuel, _) => .fuelOut

/-- Solution.topsort. -/
def topsort (g : SolGraph) (fuel : Nat) : TopResult :=
  topsortRoots g fuel g.roots ⟨[], []⟩

/-- An edge of the explicit project-reference graph: a complete project
`a` declares a reference to `b`. -/
def edgeOf (g : SolGraph) (a b : ProjectId) : Prop :=
  ∃ refs, aLookup g.complete a = some refs ∧ b ∈ refs

/-- Acyclicity of the explicit reference graph. -/
def Acyclic (g : SolGraph) : Prop :=
  ∀ x, ¬ Relation.TransGen (edgeOf g) x x

/-- An id the registry has classified (complete, dangling or
incompatible). -/
def classified (g : SolGraph) (x : ProjectId) : Prop :=
  (aLookup g.complete x).isSome = true ∨ x ∈ g.dangling ∨ x ∈ g.incompatible

/-- Position of the first occurrence of an element in a list (the index
the list.index method would report). -/
def posOf : List ProjectId → ProjectId → Nat
  | [], _ => 0
  | x :: rest, a => if x = a then 0 else posOf rest a + 1

/-- `a` occurs strictly before `b` in the list (both occur, and the first
occurrence of `a` precedes the first occurrence of `b`; for the
duplicate-free orders produced by topsort this is occurrence order). -/
def beforeIn (l : List ProjectId) (a b : ProjectId) : Prop :=
  a ∈ l ∧ b ∈ l ∧ posOf l a < posOf l b

instance (l : List ProjectId) (a b : ProjectId) : Decidable (beforeIn l a b) :=
  decidable_of_iff (a ∈ l ∧ b ∈ l ∧ posOf l a < posOf l b) Iff.rfl

/-!  Auxiliary definitions for the topsort proofs.  -/

/-- Number of complete projects not yet marked: the bound on the remaining
recursion depth of visit. -/
def unmarkedCount (g : SolGraph) (st : TState) : Nat :=
  (g.complete.map Prod.fst).countP (fun x => (getMark st x).isNone)

/-- Invariant of the traversal state: a project is marked Black exactly
when it is in the output list; the output list has no duplicates; and
every output entry of a complete project is preceded by all of its
references. -/
def TInv (g : SolGraph) (st : TState) : Prop :=
  (∀ x, getMark st x = some .black ↔ x ∈ st.output)
  ∧ st.output.Nodup
  ∧ ∀ i (hi : i < st.output.length) refs,
      aLookup g.complete (st.output.get ⟨i, hi⟩) = some refs →
      ∀ b ∈ refs, b ∈ st.output.take i

/-- One traversal state extends another: every mark of the first is still
present, unchanged, in the second. -/
def MarksExtend (st st' : TState) : Prop :=
  ∀ x m, getMark st x = some m → getMark st' x = some m

/-- Soundness of visit at a given fuel: on any classified id, any state
satisfying the invariant whose grey nodes all reach the id, visit returns
None with the invariant preserved, marks extended (new ones black only),
the id black, and the output extended. -/
def VisitGood (g : SolGraph) (fuel : Nat) : Prop :=
  ∀ id st, unmarkedCount g st < fuel → classified g id → TInv g st →
    (∀ x, getMark st x = some .grey → Relation.TransGen (edgeOf g) x id) →
    ∃ st', visit g fuel id st = (.okNone, st')
      ∧ TInv g st'
      ∧ MarksExtend st st'
      ∧ (∀ x, getMark st' x = some .grey → getMark st x = some .grey)
      ∧ getMark st' id = some .black
      ∧ ∃ d, st'.output = st.output ++ d


/-!  Discriminators used to state what a load result is not.  -/

/-- True exactly on a Cycle result. -/
def isCycleResult : Except PyErr (LoadResult Project) → Bool
  | .ok (.cycle _) => true
  | _ => false

/-- True exactly on an Incompatible result. -/
def isIncompResult : Except PyErr (LoadResult Project) → Bool
  | .ok (.incompatible _) => true
  | _ => false

/-!  Concrete inputs used by the claims.

The path toolkit of these environments is the simplest instantiation:
reference paths are used verbatim (normRel ignores the context), which is
all the scenarios need since their reference paths are already the keys of
the file map.  -/

/-- Build an environment from a finite file map and the trivial path
toolkit. -/
def mkEnv (files : List (String × FileNode)) : Env where
  file := fun p => match aLookup files p with | some f => f | none => .absent
  dirOf := fun _ => ""
  normRel := fun _ p => p
  normPath := fun p => p
  stemOf := fun p => p
  nameOf := fun p => p

/-- A ProjectReference element with all three required pieces. -/
def refElem (path nm gd : String) : ProjectRefElem :=
  ⟨some path, some nm, some gd⟩

/-- Project A of the mutual-reference pair. -/
def pIdA : ProjectId := ⟨"A", "A.csproj"⟩

/-- Project B of the mutual-reference pair. -/
def pIdB : ProjectId := ⟨"B", "B.csproj"⟩

/-- A's project file: one ProjectReference to B. -/
def docA : XmlDoc := ⟨"Project", [], [], [refElem "B.csproj" "B" "212"], []⟩

/-- B's project file: one ProjectReference back to A. -/
def docB : XmlDoc := ⟨"Project", [], [], [refElem "A.csproj" "A" "212"], []⟩

/-- The two-project mutual-reference world of the cycle-symmetry claim. -/
def envC2 : Env :=
  mkEnv [("A.csproj", .present (some docA)), ("B.csproj", .present (some docB))]

/-- A well-formed XML file whose root element is not Project. -/
def docNotProject : XmlDoc := ⟨"NotAProject", [], [], [], []⟩

/-- World with one existing file whose root is not a Project element and
one existing file that is not well-formed XML. -/
def envC3 : Env :=
  mkEnv [("X.csproj", .present (some docNotProject)),
         ("Y.csproj", .present none)]

/-- The project at the unrecognized-root file. -/
def pIdX : ProjectId := ⟨"X", "X.csproj"⟩

/-- The project at the malformed file. -/
def pIdY : ProjectId := ⟨"Y", "Y.csproj"⟩

/-- A minimal self-contained project file (no references). -/
def docPlain : XmlDoc := ⟨"Project", [], [], [], []⟩

/-- One-project world for the idempotence witness. -/
def envC4 : Env := mkEnv [("W.csproj", .present (some docPlain))]

/-- The project of the idempotence witness. -/
def pIdW : ProjectId := ⟨"W", "W.csproj"⟩

/-- The Project value the idempotence witness's first load produces. -/
def projW : Project := ⟨pIdW, [], [], [], []⟩

/-- The registry state after the idempotence witness's first load: W
cached as complete, one parse counted. -/
def regW1 : RegState := ⟨[(pIdW, projW)], [], [], [], [], 1⟩

/-- Referencing project of the dangling-propagation claim. -/
def pIdP : ProjectId := ⟨"P", "P.csproj"⟩

/-- The referenced project whose file does not exist. -/
def pIdD : ProjectId := ⟨"D", "D.csproj"⟩

/-- P's file: a ProjectReference to the non-existent D.csproj, plus a
Compile item whose path does not exist either. -/
def docb7 : XmlDoc :=
  ⟨"Project", [], [], [refElem "D.csproj" "D" "999"], [⟨some "Missing.cs"⟩]⟩

/-- World of the dangling-propagation claim: only P.csproj exists. -/
def envC7 : Env := mkEnv [("P.csproj", .present (some docb7))]

/-- The Project value loading P produces: D in the reference multimap, one
source reference. -/
def projP : Project :=
  ⟨pIdP, [(pIdD, [Guid.make "999"])], [],
   [("Missing.cs", ⟨"Missing.cs", "Missing.cs"⟩)], []⟩

/-- A property-group document deriving output name Lib at bin: the
properties the specification's output derivation would read. -/
def docLib : XmlDoc :=
  ⟨"Project",
   [⟨none, [⟨"AssemblyName", none, "Lib"⟩, ⟨"OutputPath", none, "bin"⟩,
            ⟨"OutputType", none, "Library"⟩]⟩],
   [], [], []⟩

/-- First of the two colliding projects. -/
def pId1 : ProjectId := ⟨"P1", "P1.csproj"⟩

/-- Second of the two colliding projects. -/
def pId2 : ProjectId := ⟨"P2", "P2.csproj"⟩

/-- World of the output-collision claim: two distinct projects with
identical output-deriving property groups. -/
def envC6 : Env :=
  mkEnv [("P1.csproj", .present (some docLib)),
         ("P2.csproj", .present (some docLib))]

/-- First property group of the override claim: unconditioned,
AssemblyName = Foo. -/
def groupFoo : PropGroup := ⟨none, [⟨"AssemblyName", none, "Foo"⟩]⟩

/-- Second property group of the override claim: conditioned on
Configuration being Release, AssemblyName = FooRelease. -/
def groupFooRelease : PropGroup :=
  ⟨some "'$(Configuration)'=='Release'", [⟨"AssemblyName", none, "FooRelease"⟩]⟩

/-- The two-group document of the override claim. -/
def docC8 : XmlDoc := ⟨"Project", [groupFoo, groupFooRelease], [], [], []⟩

/-- A seed configuration dict built from optional Configuration and
Platform overrides. -/
def seedCfg (cfg pl : Option String) : List (String × String) :=
  (match cfg with | some v => [("Configuration", v)] | none => []) ++
  (match pl with | some v => [("Platform", v)] | none => [])

/-- The acyclic two-project graph of the topological-order claims:
A references B, both loaded, A the only root. -/
def gTop : SolGraph := ⟨[(pIdA, [pIdB]), (pIdB, [])], [], [], [pIdA]⟩

/-!  Lemmas about the association-list primitives.  -/

section AssocLemmas

variable {α β : Type} [DecidableEq α]

theorem aLookup_aSet_self (l : List (α × β)) (k : α) (v : β) :
    aLookup (aSet l k v) k = some v := by
  induction l with
  | nil => simp [aSet, aLookup]
  | cons h t ih =>
      obtain ⟨k', v'⟩ := h
      by_cases hk : k' = k
      · simp [aSet, aLookup, hk]
      · simp [aSet, aLookup, hk, ih]

theorem aLookup_aSet_ne (l : List (α × β)) (k k' : α) (v : β) (h : k ≠ k') :
    aLookup (aSet l k v) k' = aLookup l k' := by
  induction l with
  | nil => simp [aSet, aLookup, h]
  | cons hd t ih =>
      obtain ⟨k0, v0⟩ := hd
      by_cases hk : k0 = k
      · subst hk
        simp [aSet, aLookup, h]
      · simp [aSet, aLookup, hk, ih]

theorem aLookup_append_of_some (l l' : List (α × β)) (k : α) (v : β)
    (h : aLookup l k = some v) : aLookup (l ++ l') k = some v := by
  induction l with
  | nil => simp [aLookup] at h
  | cons hd t ih =>
      obtain ⟨k0, v0⟩ := hd
      by_cases hk : k0 = k
      · simpa [aLookup, hk] using h
      · simp [aLookup, hk] at h ⊢
        exact ih h

theorem aLookup_append_of_none (l l' : List (α × β)) (k : α)
    (h : aLookup l k = none) : aLookup (l ++ l') k = aLookup l' k := by
  induction l with
  | nil => simp [aLookup]
  | cons hd t ih =>
      obtain ⟨k0, v0⟩ := hd
      by_cases hk : k0 = k
      · simp [aLookup, hk] at h
      · simp [aLookup, hk] at h ⊢
        exact ih h

theorem aLookup_isSome_mem_keys (l : List (α × β)) (k : α)
    (h : (aLookup l k).isSome = true) : k ∈ l.map Prod.fst := by
  induction l with
  | nil => simp [aLookup] at h
  | cons hd t ih =>
      obtain ⟨k0, v0⟩ := hd
      by_cases hk : k0 = k
      · simp [hk]
      · simp [aLookup, hk] at h
        simp [ih h]

end AssocLemmas

/-- C5: the condition evaluator is a pure total function (a Lean function
by construction) with the three stated concrete values, and any condition
string matched by none of the three recognized forms (the code's own
just_config, just_platform, combined matchers) leaves the caller's
previous configuration and platform unchanged. -/
theorem C5_condition_evaluator :
    parse_condition "'$(Configuration)'=='Debug'" none none
      = (some "Debug", none)
    ∧ parse_condition "'$(Configuration)|$(Platform)'=='Release|x86'" none none
      = (some "Release", some "x86")
    ∧ parse_condition "'$(Configuration)'==''" (some "Debug") none
      = (some "Debug", none)
    ∧ ∀ text cfg pl,
        matchJustConfig text.data = none →
        matchJustPlatform text.data = none →
        matchCombined text.data = none →
        parse_condition text cfg pl = (cfg, pl) := by
  refine ⟨by rfl, by rfl, by rfl, ?_⟩
  intro text cfg pl h1 h2 h3
  simp [parse_condition, h1, h2, h3]

/-- Witness for C5: a string matching no recognized form leaves the inputs
unchanged. -/
theorem C5_condition_evaluator_witness :
    parse_condition "banana" (some "Debug") (some "x86")
      = (some "Debug", some "x86") :=
  C5_condition_evaluator.2.2.2 "banana" (some "Debug") (some "x86") rfl rfl rfl

/-- C3 (code evidence): a file that exists with an unrecognized root
element loads as Ok, not Incompatible (nothing inspects the root tag); a
file that exists but is not well-formed XML raises the parse error instead
of being classified; and no path of the loader ever constructs an
Incompatible result (the constructor name the registry imports does not
even exist in project.py). -/
theorem C3_incompatible_never_produced :
    (∃ pr st1, registryLoad envC3 initReg pIdX = (.ok (.ok pr), st1))
    ∧ (registryLoad envC3 initReg pIdY).1 = .error .expatError
    ∧ ∀ (env : Env) (config : List (String × String)) (id : ProjectId),
        isIncompResult (projectLoad env config id).1 = false := by
  refine ⟨⟨_, _, rfl⟩, by rfl, ?_⟩
  intro env config id
  cases h : env.file id.path with
  | absent => simp [projectLoad, h, isIncompResult]
  | present od =>
      cases od with
      | none => simp [projectLoad, h, isIncompResult]
      | some doc =>
          cases hA : loadAssemblyRefs env id doc with
          | error e => simp [projectLoad, h, hA, isIncompResult]
          | ok asm =>
              cases hS : loadSourceRefs env id doc with
              | error e => simp [projectLoad, h, hA, hS, isIncompResult]
              | ok srcs => simp [projectLoad, h, hA, hS, isIncompResult]

/-- C2 (code evidence): in the two-project mutual-reference world, loading
A through one fresh registry returns Ok with B in A's reference set — not
a Cycle result; loading B afterwards is Ok as well.  The loader never
recurses into referenced projects (Project._load_project_ref parses the
declaration without calling the registry), so the re-entrancy that would
produce a Cycle backtrace never happens. -/
theorem C2_mutual_reference_loads_ok :
    (∃ pr st1, registryLoad envC2 initReg pIdA = (.ok (.ok pr), st1)
       ∧ pr.project_refs = [pIdB])
    ∧ isCycleResult (registryLoad envC2 initReg pIdA).1 = false
    ∧ isCycleResult
        (registryLoad envC2 (registryLoad envC2 initReg pIdA).2 pIdB).1
      = false := by
  refine ⟨⟨_, _, rfl, by decide⟩, by decide, by decide⟩

/-- ProjectSet.add's Ok branch always ends in the AttributeError of the
missing Project.output; the state keeps the parent edges and dangling
assemblies recorded before the raise. -/
theorem addOkBody_eq (env : Env) (st : SetState) (id : ProjectId)
    (p : Project) (rest : List ProjectId) :
    addOkBody env st id p rest =
      ({ st with
          parents :=
            p.project_refs.foldl (fun m s => mmAdd m s p.project_id) st.parents,
          assemblyDangling :=
            p.assembly_refs.foldl
              (fun m a =>
                match a.path with
                | some pa => if fileExists env pa then m else mmAdd m id a
                | none => m)
              st.assemblyDangling },
       p.project_refs.reverse ++ rest, some PyErr.attributeError) := by
  rfl

/-- addLoop never writes the dangling-source multimap. -/
theorem addLoop_sourceDangling (env : Env) :
    ∀ fuel st stack,
      (addLoop env fuel st stack).1.sourceDangling = st.sourceDangling := by
  intro fuel
  induction fuel with
  | zero => intro st stack; rfl
  | succ n ih =>
      intro st stack
      cases stack with
      | nil => rfl
      | cons id rest =>
          rw [addLoop]
          split
          · exact ih st rest
          · rcases hreg : registryLoad env st.reg id with ⟨res, reg'⟩
            match res with
            | .error e => simp [hreg]
            | .ok (.ok p) => simp [hreg, addOkBody_eq]
            | .ok (.dangling bt) => simpa [hreg] using ih _ rest
            | .ok (.incompatible bt) => simpa [hreg] using ih _ rest
            | .ok (.cycle bt) => simpa [hreg] using ih _ rest

/-- A sequence of add calls never writes the dangling-source multimap. -/
theorem addMany_sourceDangling (env : Env) (fuel : Nat) :
    ∀ seeds st,
      (addMany env fuel st seeds).sourceDangling = st.sourceDangling := by
  intro seeds
  induction seeds with
  | nil => intro st; rfl
  | cons s ss ih =>
      intro st
      rw [addMany, ih, addLoop_sourceDangling]

/-- C10: for every environment, fuel bound and sequence of add calls on a
fresh ProjectSet, dangling_sources() is the empty multimap: no code path
of ProjectSet.add records a dangling source reference. -/
theorem C10_dangling_sources_empty (env : Env) (fuel : Nat)
    (seeds : List ProjectId) :
    dangling_sources (addMany env fuel initSet seeds) = [] := by
  unfold dangling_sources
  rw [addMany_sourceDangling]
  rfl

theorem registryLoad_cached (env : Env) (st : RegState) (id : ProjectId) (p : Project)
    (h : aLookup st.complete id = some p) :
    registryLoad env st id = (.ok (.ok p), st) := by
  unfold registryLoad
  rw [h]

theorem registryLoad_dangling_cached (env : Env) (st : RegState) (id : ProjectId)
    (hq : aLookup st.complete id = none) (hd : id ∈ st.dangling) :
    registryLoad env st id = (.ok (.dangling [id]), st) := by
  unfold registryLoad
  simp only [hq]
  rw [if_pos hd]

theorem registryLoad_incomp_cached (env : Env) (st : RegState) (id : ProjectId)
    (hq : aLookup st.complete id = none) (hd : id ∉ st.dangling)
    (hi : id ∈ st.incompatible) :
    registryLoad env st id = (.ok (.incompatible [id]), st) := by
  unfold registryLoad
  simp only [hq]
  rw [if_neg hd, if_pos hi]

theorem registryLoad_loading_cycle (env : Env) (st : RegState) (id : ProjectId)
    (hq : aLookup st.complete id = none) (hd : id ∉ st.dangling)
    (hi : id ∉ st.incompatible) (hl : id ∈ st.loading) :
    registryLoad env st id = (.ok (.cycle [id]), st) := by
  unfold registryLoad
  simp only [hq]
  rw [if_neg hd, if_neg hi, if_pos hl]

theorem registryLoad_main (env : Env) (st : RegState) (id : ProjectId)
    (hq : aLookup st.complete id = none) (hd : id ∉ st.dangling)
    (hi : id ∉ st.incompatible) (hl : id ∉ st.loading) :
    registryLoad env st id = regFinish st id (projectLoad env st.config id) := by
  unfold registryLoad
  simp only [hq]
  rw [if_neg hd, if_neg hi, if_neg hl]

theorem regFinish_complete_extends (st : RegState) (id : ProjectId)
    (r : Except PyErr (LoadResult Project) × Bool) :
    (regFinish st id r).2.complete = st.complete
    ∨ ∃ p, (regFinish st id r).2.complete = st.complete ++ [(id, p)] := by
  rcases r with ⟨res, b⟩
  match res with
  | .error e => exact Or.inl rfl
  | .ok (.ok p) => exact Or.inr ⟨p, rfl⟩
  | .ok (.dangling bt) => exact Or.inl rfl
  | .ok (.incompatible bt) => exact Or.inl rfl
  | .ok (.cycle bt) => exact Or.inl rfl

theorem regFinish_ok_lookup (st : RegState) (id : ProjectId)
    (r : Except PyErr (LoadResult Project) × Bool) (p : Project) (st' : RegState)
    (hq : aLookup st.complete id = none)
    (h : regFinish st id r = (.ok (.ok p), st')) :
    aLookup st'.complete id = some p := by
  rcases r with ⟨res, b⟩
  match res with
  | .error e => simp [regFinish] at h
  | .ok (.ok q) =>
      simp only [regFinish, Prod.mk.injEq, Except.ok.injEq, LoadResult.ok.injEq] at h
      obtain ⟨h1, h2⟩ := h
      subst h1
      rw [← h2]
      simp only []
      rw [aLookup_append_of_none _ _ _ hq]
      simp [aLookup]
  | .ok (.dangling bt) => simp [regFinish] at h
  | .ok (.incompatible bt) => simp [regFinish] at h
  | .ok (.cycle bt) => simp [regFinish] at h

theorem registryLoad_ok_lookup (env : Env) (st : RegState) (id : ProjectId)
    (p : Project) (st' : RegState)
    (h : registryLoad env st id = (.ok (.ok p), st')) :
    aLookup st'.complete id = some p := by
  cases hq : aLookup st.complete id with
  | some q =>
      rw [registryLoad_cached env st id q hq] at h
      simp only [Prod.mk.injEq, Except.ok.injEq, LoadResult.ok.injEq] at h
      obtain ⟨h1, h2⟩ := h
      subst h1; subst h2
      exact hq
  | none =>
      by_cases hd : id ∈ st.dangling
      · rw [registryLoad_dangling_cached env st id hq hd] at h
        simp at h
      · by_cases hi : id ∈ st.incompatible
        · rw [registryLoad_incomp_cached env st id hq hd hi] at h
          simp at h
        · by_cases hl : id ∈ st.loading
          · rw [registryLoad_loading_cycle env st id hq hd hi hl] at h
            simp at h
          · rw [registryLoad_main env st id hq hd hi hl] at h
            exact regFinish_ok_lookup st id _ p st' hq h

theorem registryLoad_preserves_complete (env : Env) (st : RegState)
    (q k : ProjectId) (pk : Project)
    (h : aLookup st.complete k = some pk) :
    aLookup (registryLoad env st q).2.complete k = some pk := by
  cases hq : aLookup st.complete q with
  | some p => rw [registryLoad_cached env st q p hq]; exact h
  | none =>
      by_cases hd : q ∈ st.dangling
      · rw [registryLoad_dangling_cached env st q hq hd]; exact h
      · by_cases hi : q ∈ st.incompatible
        · rw [registryLoad_incomp_cached env st q hq hd hi]; exact h
        · by_cases hl : q ∈ st.loading
          · rw [registryLoad_loading_cycle env st q hq hd hi hl]; exact h
          · rw [registryLoad_main env st q hq hd hi hl]
            rcases regFinish_complete_extends st q (projectLoad env st.config q) with
              he | ⟨p, he⟩
            · rw [he]; exact h
            · rw [he]; exact aLookup_append_of_some _ _ _ _ h

theorem loadMany_preserves_complete (env : Env) :
    ∀ (qs : List ProjectId) (st : RegState) (k : ProjectId) (pk : Project),
      aLookup st.complete k = some pk →
      aLookup (loadMany env st qs).complete k = some pk := by
  intro qs
  induction qs with
  | nil => intro st k pk h; exact h
  | cons q qs ih =>
      intro st k pk h
      rw [loadMany]
      exact ih _ k pk (registryLoad_preserves_complete env st q k pk h)

/-- C4: a ProjectId whose first load through a registry returned Ok is
cached; every subsequent load of that id through the same registry (after
any sequence of other loads) returns Ok with the same cached Project value
and leaves the registry state, including the parse counter, unchanged, so
no second parse of the file occurs. -/
theorem C4_registry_load_idempotent_main (env : Env) (st : RegState)
    (id : ProjectId) (p : Project) (st1 : RegState) (qs : List ProjectId)
    (h : registryLoad env st id = (.ok (.ok p), st1)) :
    registryLoad env (loadMany env st1 qs) id
      = (.ok (.ok p), loadMany env st1 qs) :=
  registryLoad_cached env _ id p
    (loadMany_preserves_complete env qs st1 id p
      (registryLoad_ok_lookup env st id p st1 h))

/-- Witness for C4: in the one-project world, the second load of W returns
the cached project with the state (parse counter included) unchanged. -/
theorem C4_registry_load_idempotent_main_witness :
    registryLoad envC4 (loadMany envC4 regW1 []) pIdW
      = (.ok (.ok projW), loadMany envC4 regW1 []) :=
  C4_registry_load_idempotent_main envC4 initReg pIdW projW regW1 [] (by decide)

/-- A file that exists and parses either raises an integrity fault or
loads Ok; either way the parse was attempted. -/
theorem projectLoad_present_cases (env : Env) (config : List (String × String))
    (id : ProjectId) (doc : XmlDoc)
    (h : env.file id.path = .present (some doc)) :
    (∃ e, projectLoad env config id = (.error e, true))
    ∨ (∃ p, projectLoad env config id = (.ok (.ok p), true)) := by
  unfold projectLoad
  simp only [h]
  cases hA : loadAssemblyRefs env id doc with
  | error e => exact Or.inl ⟨e, rfl⟩
  | ok asm =>
      cases hS : loadSourceRefs env id doc with
      | error e => exact Or.inl ⟨e, rfl⟩
      | ok srcs => exact Or.inr ⟨_, rfl⟩

/-- C9: for a seed not yet classified whose file exists and parses,
ProjectSet.add never completes normally (an exception is raised), and
whenever the registry load returns Ok the exception is precisely the
AttributeError of the missing Project.output, raised at output
derivation. -/
theorem C9_add_raises_attribute_error (env : Env) (st : SetState)
    (id : ProjectId) (fuel : Nat) (doc : XmlDoc)
    (hc : aLookup st.reg.complete id = none)
    (hd : id ∉ st.reg.dangling) (hi : id ∉ st.reg.incompatible)
    (hcy : id ∉ st.cyclic) (hl : id ∉ st.reg.loading)
    (hfile : env.file id.path = FileNode.present (some doc)) :
    ((addLoop env (fuel + 1) st [id]).2).isSome = true
    ∧ ∀ p, (registryLoad env st.reg id).1 = .ok (.ok p) →
        (addLoop env (fuel + 1) st [id]).2 = some PyErr.attributeError := by
  have hni : ¬((aLookup st.reg.complete id).isSome = true ∨ id ∈ st.reg.dangling ∨
      id ∈ st.reg.incompatible ∨ id ∈ st.cyclic) := by
    simp [hc, hd, hi, hcy]
  have hmain := registryLoad_main env st.reg id hc hd hi hl
  rcases projectLoad_present_cases env st.reg.config id doc hfile with
    ⟨e, hP⟩ | ⟨p, hP⟩
  · obtain ⟨st2, hrl⟩ : ∃ st2, registryLoad env st.reg id = (.error e, st2) :=
      ⟨_, by rw [hmain, hP]; rfl⟩
    constructor
    · rw [addLoop, if_neg hni, hrl]
      rfl
    · intro q hEq
      rw [hrl] at hEq
      simp at hEq
  · obtain ⟨st2, hrl⟩ : ∃ st2, registryLoad env st.reg id = (.ok (.ok p), st2) :=
      ⟨_, by rw [hmain, hP]; rfl⟩
    constructor
    · rw [addLoop, if_neg hni, hrl]
      simp [addOkBody_eq]
    · intro q hEq
      rw [addLoop, if_neg hni, hrl]
      simp [addOkBody_eq]

/-- Witness for C9: adding P in the dangling-reference world raises
AttributeError. -/
theorem C9_add_raises_attribute_error_witness :
    ((addLoop envC7 1 initSet [pIdP]).2).isSome = true
    ∧ (addLoop envC7 1 initSet [pIdP]).2 = some PyErr.attributeError := by
  have h := C9_add_raises_attribute_error envC7 initSet pIdP 0 docb7
    (by decide) (by decide) (by decide) (by decide) (by decide) (by decide)
  exact ⟨h.1, h.2 projP (by decide)⟩

/-- C6 (code evidence): adding either of two identically-outputting
projects raises AttributeError at output derivation before any collision
bookkeeping, so after both adds duplicate_outputs is empty (not holding
the two projects, as the claim states) and the projects_by_output
accessor itself raises AttributeError, reading an attribute that is never
assigned. -/
theorem C6_output_collision_crashes :
    (addLoop envC6 5 initSet [pId1]).2 = some PyErr.attributeError
    ∧ (addLoop envC6 5 (addLoop envC6 5 initSet [pId1]).1 [pId2]).2
        = some PyErr.attributeError
    ∧ duplicate_outputs (addMany envC6 5 initSet [pId1, pId2]) = []
    ∧ projects_by_output (addMany envC6 5 initSet [pId1, pId2])
        = .error PyErr.attributeError := by
  refine ⟨by decide, by decide, by decide, rfl⟩

/-- C7 (code evidence): loading P returns Ok with the dangling D in its
reference set, and loading D returns Dangling with no parse attempted; but
adding P to a fresh ProjectSet raises AttributeError at output derivation
before D is ever popped from the traversal stack, so D is not classified
dangling, contrary to the claim's final part. -/
theorem C7_dangling_propagation :
    (∃ pr st1, registryLoad envC7 initReg pIdP = (.ok (.ok pr), st1)
       ∧ pIdD ∈ pr.project_refs)
    ∧ (∃ st2, registryLoad envC7 initReg pIdD = (.ok (.dangling [pIdD, pIdD]), st2)
       ∧ st2.parses = 0)
    ∧ (addLoop envC7 5 initSet [pIdP]).2 = some PyErr.attributeError
    ∧ pIdD ∉ (addLoop envC7 5 initSet [pIdP]).1.reg.dangling := by
  refine ⟨⟨_, _, rfl, by decide⟩, ⟨_, rfl, by decide⟩, by decide, by decide⟩

/-- Evaluation of the condition of the second override group. -/
theorem parse_release_eval :
    parse_condition "'$(Configuration)'=='Release'" none none
      = (some "Release", none) := by rfl

/-- C8: with the two-group document (unconditioned AssemblyName=Foo, then
AssemblyName=FooRelease under Configuration=Release), the final
AssemblyName is FooRelease exactly when the seed config carries
Configuration=Release and Foo otherwise; and in general a later matching
group overrides earlier assignments of the same property (an unconditioned
final group setting any non-Configuration/Platform property determines its
final value). -/
theorem C8_property_override :
    (∀ (config : List (String × String)) (cfg pl : Option String),
        aLookup config "Configuration" = cfg →
        aLookup config "Platform" = pl →
        aLookup (loadProps config docC8) "AssemblyName"
          = some (if cfg = some "Release" then "FooRelease" else "Foo"))
    ∧ (∀ (config : List (String × String)) (rt : String)
        (ar : List AssemblyRefElem) (pr : List ProjectRefElem)
        (ce : List CompileElem) (gs : List PropGroup)
        (tag txt : String) (cond0 : Option String),
        tag ≠ "Configuration" → tag ≠ "Platform" →
        aLookup
          (loadProps config ⟨rt, gs ++ [⟨none, [⟨tag, cond0, txt⟩]⟩], ar, pr, ce⟩)
          tag = some txt) := by
  constructor
  · intro config cfg pl hc hp
    unfold loadProps
    rw [hc, hp]
    cases cfg with
    | none =>
        cases pl with
        | none =>
            simp only [docC8, groupFoo, groupFooRelease, List.foldl_cons,
              List.foldl_nil, applyGroup, matchCondition, applyChild,
              matchEnvOpt, parse_release_eval, aSet, aLookup]
            decide
        | some w =>
            simp [docC8, groupFoo, groupFooRelease, applyGroup, matchCondition,
              applyChild, matchEnvOpt, parse_release_eval, aSet, aLookup]
    | some v =>
        by_cases hv : v = "Release"
        · subst hv
          cases pl with
          | none => decide
          | some w =>
              simp [docC8, groupFoo, groupFooRelease, applyGroup, matchCondition,
                applyChild, matchEnvOpt, parse_release_eval, aSet, aLookup]
        · cases pl with
          | none =>
              simp [docC8, groupFoo, groupFooRelease, applyGroup, matchCondition,
                applyChild, matchEnvOpt, parse_release_eval, aSet, aLookup, hv]
          | some w =>
              simp [docC8, groupFoo, groupFooRelease, applyGroup, matchCondition,
                applyChild, matchEnvOpt, parse_release_eval, aSet, aLookup, hv]
  · intro config rt ar pr ce gs tag txt cond0 h1 h2
    unfold loadProps
    simp only [List.foldl_append, List.foldl_cons, List.foldl_nil]
    rw [applyGroup]
    simp only [matchCondition, if_true]
    simp only [List.foldl_cons, List.foldl_nil]
    rw [applyChild]
    rw [if_neg h1, if_neg h2]
    exact aLookup_aSet_self _ _ _

/-- Witness for C8: seeded Release gives FooRelease; an unconditioned
final group wins. -/
theorem C8_property_override_witness :
    aLookup (loadProps [("Configuration", "Release")] docC8) "AssemblyName"
      = some "FooRelease"
    ∧ aLookup
        (loadProps []
          ⟨"Project", [] ++ [⟨none, [⟨"AssemblyName", none, "Bar"⟩]⟩], [], [], []⟩)
        "AssemblyName" = some "Bar" := by
  constructor
  · exact (C8_property_override.1 [("Configuration", "Release")]
      (some "Release") none rfl rfl).trans (by decide)
  · exact C8_property_override.2 [] "Project" [] [] [] [] "AssemblyName" "Bar"
      none (by decide) (by decide)

/-!  List auxiliaries for the topsort proof.  -/

section ListAux

variable {α : Type}

theorem countP_mono' (p q : α → Bool) (h : ∀ x, p x = true → q x = true) :
    ∀ l : List α, l.countP p ≤ l.countP q := by
  intro l
  induction l with
  | nil => simp
  | cons c rest ih =>
      rw [List.countP_cons, List.countP_cons]
      by_cases hc : p c = true
      · rw [if_pos hc, if_pos (h c hc)]
        omega
      · rw [if_neg hc]
        have : (if q c = true then 1 else 0) ≤ 1 := by split <;> omega
        omega

theorem countP_lt' (p q : α → Bool) (h : ∀ x, q x = true → p x = true)
    (a : α) :
    ∀ l : List α, a ∈ l → p a = true → q a = false →
      l.countP q < l.countP p := by
  intro l
  induction l with
  | nil => intro h; simp at h
  | cons c rest ih =>
      intro hmem hpa hqa
      rw [List.countP_cons, List.countP_cons]
      rcases List.mem_cons.mp hmem with hc | hc
      · subst hc
        rw [if_pos hpa, if_neg (by simp [hqa])]
        have := countP_mono' q p h rest
        omega
      · have hlt := ih hc hpa hqa
        have : (if q c = true then 1 else 0) ≤ (if p c = true then 1 else 0) := by
          by_cases hq : q c = true
          · rw [if_pos hq, if_pos (h c hq)]
          · rw [if_neg hq]
            split <;> omega
        omega

theorem get_append_left' (u v : List α) (i : Nat) (h : i < u.length)
    (h2 : i < (u ++ v).length) :
    (u ++ v).get ⟨i, h2⟩ = u.get ⟨i, h⟩ := by
  induction u generalizing i with
  | nil => simp at h
  | cons c rest ih =>
      cases i with
      | zero => rfl
      | succ j =>
          simp only [List.cons_append, List.get]
          exact ih j (by simpa using h) (by simp only [List.cons_append, List.length_cons] at h2; omega)

theorem get_append_len (u : List α) (a : α)
    (h : u.length < (u ++ [a]).length) :
    (u ++ [a]).get ⟨u.length, h⟩ = a := by
  induction u with
  | nil => rfl
  | cons c rest ih => exact ih (by simp)

theorem take_append_le (u v : List α) (i : Nat) (h : i ≤ u.length) :
    (u ++ v).take i = u.take i := by
  induction u generalizing i with
  | nil =>
      cases i with
      | zero => simp
      | succ j => simp at h
  | cons c rest ih =>
      cases i with
      | zero => simp
      | succ j =>
          show c :: (rest ++ v).take j = c :: rest.take j
          rw [ih j (by simpa using h)]

end ListAux

/-!  Properties of posOf (first-occurrence position).  -/

section PosAux

theorem posOf_lt_length (l : List ProjectId) (a : ProjectId) (h : a ∈ l) :
    posOf l a < l.length := by
  induction l with
  | nil => simp at h
  | cons c rest ih =>
      rw [posOf]
      by_cases hc : c = a
      · simp [hc]
      · rcases List.mem_cons.mp h with h1 | h1
        · exact absurd h1.symm hc
        · simp only [if_neg hc, List.length_cons]
          have := ih h1
          omega

theorem posOf_get (l : List ProjectId) (h : l.Nodup) :
    ∀ i (hi : i < l.length), posOf l (l.get ⟨i, hi⟩) = i := by
  induction l with
  | nil => intro i hi; simp at hi
  | cons c rest ih =>
      intro i hi
      cases i with
      | zero => simp [posOf]
      | succ j =>
          have hj : j < rest.length := by simpa using hi
          have hmem : rest.get ⟨j, hj⟩ ∈ rest := List.get_mem rest j hj
          have hc : c ≠ rest.get ⟨j, hj⟩ := by
            intro hcc
            exact (List.nodup_cons.mp h).1 (hcc ▸ hmem)
          simp only [List.get]
          rw [posOf, if_neg hc, ih (List.nodup_cons.mp h).2 j hj]

theorem posOf_take (l : List ProjectId) (b : ProjectId) :
    ∀ i, b ∈ l.take i → posOf l b < i := by
  induction l with
  | nil => intro i h; simp at h
  | cons c rest ih =>
      intro i h
      cases i with
      | zero => simp at h
      | succ j =>
          rw [posOf]
          by_cases hc : c = b
          · simp [hc]
          · simp only [List.take, List.mem_cons] at h
            rcases h with h1 | h1
            · exact absurd h1.symm hc
            · have := ih j h1
              simp only [if_neg hc]
              omega

theorem posOf_append_left (u v : List ProjectId) (a : ProjectId) (h : a ∈ u) :
    posOf (u ++ v) a = posOf u a := by
  induction u with
  | nil => simp at h
  | cons c rest ih =>
      by_cases hc : c = a
      · simp [posOf, hc]
      · rcases List.mem_cons.mp h with h1 | h1
        · exact absurd h1.symm hc
        · show posOf (c :: (rest ++ v)) a = _
          rw [posOf, posOf, if_neg hc, if_neg hc, ih h1]

theorem posOf_append_right (u v : List ProjectId) (a : ProjectId) (h : a ∉ u) :
    posOf (u ++ v) a = u.length + posOf v a := by
  induction u with
  | nil => simp
  | cons c rest ih =>
      have hc : c ≠ a := by intro hcc; exact h (by simp [hcc])
      have hr : a ∉ rest := by intro hr; exact h (by simp [hr])
      show posOf (c :: (rest ++ v)) a = _
      rw [posOf, if_neg hc, ih hr, List.length_cons]
      omega

theorem posOf_reverse (l : List ProjectId) (h : l.Nodup) (a : ProjectId)
    (ha : a ∈ l) :
    posOf l.reverse a = l.length - 1 - posOf l a := by
  induction l with
  | nil => simp at ha
  | cons c rest ih =>
      have hnd := List.nodup_cons.mp h
      by_cases hc : c = a
      · subst hc
        rw [List.reverse_cons, posOf_append_right _ _ _ (by simpa using hnd.1)]
        simp [posOf]
      · rcases List.mem_cons.mp ha with h1 | h1
        · exact absurd h1.symm hc
        · rw [List.reverse_cons, posOf_append_left _ _ _ (by simpa using h1)]
          rw [ih hnd.2 h1]
          have := posOf_lt_length rest a h1
          simp only [posOf, if_neg hc, List.length_cons]
          omega

end PosAux

/-- Counterexample to C1 as stated: in the acyclic graph where A
references B, topsort succeeds with the order [A, B]; the edge A to B
exists, yet B does not occur strictly before A in the returned order. -/
theorem C1_counterexample :
    topsort gTop 3 = .success [pIdA, pIdB]
    ∧ edgeOf gTop pIdA pIdB
    ∧ ¬ beforeIn [pIdA, pIdB] pIdB pIdA := by
  refine ⟨by decide, ⟨[pIdB], by decide, by decide⟩, by decide⟩

/-!  Traversal-state primitives.  -/

theorem getMark_setMark_self (st : TState) (id : ProjectId) (m : Mark) :
    getMark (setMark st id m) id = some m := aLookup_aSet_self _ _ _

theorem getMark_setMark_ne (st : TState) (id x : ProjectId) (m : Mark)
    (h : id ≠ x) : getMark (setMark st id m) x = getMark st x :=
  aLookup_aSet_ne _ _ _ _ h

theorem getMark_pushOut (st : TState) (id x : ProjectId) :
    getMark (pushOut st id) x = getMark st x := rfl

theorem output_pushOut_setMark (st : TState) (id : ProjectId) (m : Mark) :
    (pushOut (setMark st id m) id).output = st.output ++ [id] := rfl

theorem marksExtend_refl (st : TState) : MarksExtend st st := fun _ _ h => h

theorem marksExtend_trans {a b c : TState}
    (h1 : MarksExtend a b) (h2 : MarksExtend b c) : MarksExtend a c :=
  fun x m h => h2 x m (h1 x m h)

/-- Extending the marks cannot increase the number of unmarked complete
projects. -/
theorem unmarkedCount_le (g : SolGraph) (st st' : TState)
    (h : MarksExtend st st') :
    unmarkedCount g st' ≤ unmarkedCount g st := by
  apply countP_mono'
  intro x hx
  cases hm : getMark st x with
  | none => rfl
  | some m => rw [h x m hm] at hx; simp at hx

/-- Marking an unmarked complete project strictly decreases the count. -/
theorem unmarkedCount_setMark_lt (g : SolGraph) (st : TState)
    (id : ProjectId) (m : Mark)
    (hid : id ∈ g.complete.map Prod.fst) (h : getMark st id = none) :
    unmarkedCount g (setMark st id m) < unmarkedCount g st := by
  apply countP_lt' _ _ ?_ id _ hid ?_ ?_
  · intro x hx
    cases hm : getMark st x with
    | none => rfl
    | some mm =>
        by_cases hxi : id = x
        · subst hxi; rw [h] at hm; cases hm
        · rw [getMark_setMark_ne st id x m hxi, hm] at hx
          simp at hx
  · rw [h]; rfl
  · rw [getMark_setMark_self]; rfl

/-- Appending an element whose references are already in the list
preserves the ordering invariant. -/
theorem ord_append (g : SolGraph) (out : List ProjectId) (id : ProjectId)
    (hORD : ∀ i (hi : i < out.length) refs,
        aLookup g.complete (out.get ⟨i, hi⟩) = some refs →
        ∀ b ∈ refs, b ∈ out.take i)
    (hrefs : ∀ refs, aLookup g.complete id = some refs →
        ∀ b ∈ refs, b ∈ out) :
    ∀ i (hi : i < (out ++ [id]).length) refs,
      aLookup g.complete ((out ++ [id]).get ⟨i, hi⟩) = some refs →
      ∀ b ∈ refs, b ∈ (out ++ [id]).take i := by
  intro i hi refs hlook b hb
  rcases Nat.lt_or_ge i out.length with hlt | hge
  · rw [get_append_left' _ _ i hlt _] at hlook
    rw [take_append_le _ _ i (Nat.le_of_lt hlt)]
    exact hORD i hlt refs hlook b hb
  · have hieq : i = out.length := by
      simp only [List.length_append, List.length_cons, List.length_nil] at hi
      omega
    subst hieq
    rw [get_append_len] at hlook
    rw [take_append_le _ _ _ (Nat.le_refl _), List.take_length]
    exact hrefs refs hlook b hb

/-- The finishing step of visit (mark Black, append to the output)
preserves the invariant when every reference of the id is already in the
output. -/
theorem finish_TInv (g : SolGraph) (st : TState) (id : ProjectId)
    (hInv : TInv g st) (hnot : id ∉ st.output)
    (hrefs : ∀ refs, aLookup g.complete id = some refs →
        ∀ b ∈ refs, b ∈ st.output) :
    TInv g (pushOut (setMark st id .black) id) := by
  obtain ⟨hMB, hND, hORD⟩ := hInv
  refine ⟨?_, ?_, ?_⟩
  · intro x
    rw [getMark_pushOut]
    show _ ↔ x ∈ st.output ++ [id]
    rw [List.mem_append]
    by_cases hx : id = x
    · subst hx
      rw [getMark_setMark_self]
      simp
    · rw [getMark_setMark_ne st id x _ hx]
      constructor
      · intro h; exact Or.inl ((hMB x).mp h)
      · intro h
        rcases h with h | h
        · exact (hMB x).mpr h
        · simp at h; exact absurd h.symm hx
  · show (st.output ++ [id]).Nodup
    rw [List.nodup_append]
    refine ⟨hND, by simp, ?_⟩
    intro a ha hb
    simp at hb
    subst hb
    exact hnot ha
  · exact ord_append g st.output id hORD hrefs

/-- Soundness of the reference loop: with the id grey, every pending
reference classified, and every reference either pending or already
black, the loop visits the children and finishes the id. -/
theorem visitList_ok (g : SolGraph)
    (Hclosed : ∀ a refs, aLookup g.complete a = some refs →
        ∀ b ∈ refs, classified g b)
    (fuel : Nat) (IH : VisitGood g fuel) :
    ∀ (refs : List ProjectId) (id : ProjectId) (refs₀ : List ProjectId)
      (st : TState),
      aLookup g.complete id = some refs₀ →
      (∀ b ∈ refs, b ∈ refs₀) →
      (∀ b ∈ refs₀, b ∈ refs ∨ getMark st b = some .black) →
      unmarkedCount g st < fuel →
      TInv g st →
      getMark st id = some .grey →
      (∀ x, getMark st x = some .grey →
        x = id ∨ Relation.TransGen (edgeOf g) x id) →
      ∃ st',
        visitList (visit g fuel) refs id st = (.okNone, st')
        ∧ TInv g st'
        ∧ (∀ x m, x ≠ id → getMark st x = some m → getMark st' x = some m)
        ∧ (∀ x, getMark st' x = some .grey →
            getMark st x = some .grey ∧ x ≠ id)
        ∧ getMark st' id = some .black
        ∧ ∃ d, st'.output = st.output ++ d := by
  intro refs
  induction refs with
  | nil =>
      intro id refs₀ st hlook hsub hdone hcnt hInv hgrey hgreys
      have hnot : id ∉ st.output := by
        intro hmem
        have h2 := (hInv.1 id).mpr hmem
        rw [hgrey] at h2
        simp at h2
      have hrefsO : ∀ refs', aLookup g.complete id = some refs' →
          ∀ b ∈ refs', b ∈ st.output := by
        intro refs' hlook' b hb
        rw [hlook] at hlook'
        obtain rfl : refs₀ = refs' := by injection hlook'
        rcases hdone b hb with hmem | hbl
        · simp at hmem
        · exact (hInv.1 b).mp hbl
      refine ⟨pushOut (setMark st id .black) id, rfl,
        finish_TInv g st id hInv hnot hrefsO, ?_, ?_, ?_, ⟨[id], rfl⟩⟩
      · intro x m hx hm2
        rw [getMark_pushOut, getMark_setMark_ne st id x _ (fun h => hx h.symm)]
        exact hm2
      · intro x hx
        by_cases hxi : id = x
        · subst hxi
          rw [getMark_pushOut, getMark_setMark_self] at hx
          simp at hx
        · rw [getMark_pushOut, getMark_setMark_ne st id x _ hxi] at hx
          exact ⟨hx, fun h => hxi h.symm⟩
      · rw [getMark_pushOut]
        exact getMark_setMark_self _ _ _
  | cons sub rest ih =>
      intro id refs₀ st hlook hsub hdone hcnt hInv hgrey hgreys
      have hsubmem : sub ∈ refs₀ := hsub sub (by simp)
      have hedge : edgeOf g id sub := ⟨refs₀, hlook, hsubmem⟩
      have hclass : classified g sub := Hclosed id refs₀ hlook sub hsubmem
      have hgrey2 : ∀ x, getMark st x = some .grey →
          Relation.TransGen (edgeOf g) x sub := by
        intro x hx
        rcases hgreys x hx with rfl | ht
        · exact Relation.TransGen.single hedge
        · exact Relation.TransGen.tail ht hedge
      obtain ⟨st₁, hvisit, hInv₁, hext₁, hgreys₁, hblack₁, d₁, hout₁⟩ :=
        IH sub st hcnt hclass hInv hgrey2
      have hdone' : ∀ b ∈ refs₀, b ∈ rest ∨ getMark st₁ b = some .black := by
        intro b hb
        rcases hdone b hb with hbr | hbm
        · rcases List.mem_cons.mp hbr with rfl | hbr2
          · exact Or.inr hblack₁
          · exact Or.inl hbr2
        · exact Or.inr (hext₁ b .black hbm)
      have hcnt' : unmarkedCount g st₁ < fuel :=
        Nat.lt_of_le_of_lt (unmarkedCount_le g st st₁ hext₁) hcnt
      have hgrey₁ : getMark st₁ id = some .grey := hext₁ id .grey hgrey
      have hgreys' : ∀ x, getMark st₁ x = some .grey →
          x = id ∨ Relation.TransGen (edgeOf g) x id :=
        fun x hx => hgreys x (hgreys₁ x hx)
      obtain ⟨st', hrun, hI', hext', hgr', hb', d', hout'⟩ :=
        ih id refs₀ st₁ hlook (fun b hb => hsub b (by simp [hb])) hdone'
          hcnt' hInv₁ hgrey₁ hgreys'
      refine ⟨st', ?_, hI', ?_, ?_, hb', ?_⟩
      · show visitList (visit g fuel) (sub :: rest) id st = (.okNone, st')
        rw [visitList, hvisit]
        exact hrun
      · intro x m hx hm2
        exact hext' x m hx (hext₁ x m hm2)
      · intro x hx
        obtain ⟨h1, h2⟩ := hgr' x hx
        exact ⟨hgreys₁ x h1, h2⟩
      · exact ⟨d₁ ++ d', by rw [hout', hout₁, List.append_assoc]⟩

/-- Soundness of visit for every fuel, by induction on fuel: the fuel
bound is the number of unmarked complete projects, which strictly
decreases at each level of nesting. -/
theorem visit_ok (g : SolGraph)
    (Hdisj : ∀ x, (aLookup g.complete x).isSome = true →
        x ∉ g.dangling ∧ x ∉ g.incompatible)
    (Hclosed : ∀ a refs, aLookup g.complete a = some refs →
        ∀ b ∈ refs, classified g b)
    (Hacyc : Acyclic g) :
    ∀ fuel, VisitGood g fuel := by
  intro fuel
  induction fuel with
  | zero =>
      intro id st hcnt _ _ _
      omega
  | succ fuel ih =>
      intro id st hcnt hclass hInv hgreys
      cases hm : getMark st id with
      | some m =>
          cases m with
          | grey => exact absurd (hgreys id hm) (Hacyc id)
          | black =>
              refine ⟨st, ?_, hInv, marksExtend_refl st, fun x h => h, hm,
                ⟨[], by simp⟩⟩
              show visit g (fuel + 1) id st = (.okNone, st)
              simp [visit, hm]
      | none =>
          have hnot : id ∉ st.output := by
            intro hmem
            have h2 := (hInv.1 id).mpr hmem
            rw [hm] at h2
            simp at h2
          by_cases hleaf : id ∈ g.dangling ∨ id ∈ g.incompatible
          · have hrefsO : ∀ refs, aLookup g.complete id = some refs →
                ∀ b ∈ refs, b ∈ st.output := by
              intro refs hlook b hb
              have hs : (aLookup g.complete id).isSome = true := by
                rw [hlook]; rfl
              rcases hleaf with h | h
              · exact absurd h (Hdisj id hs).1
              · exact absurd h (Hdisj id hs).2
            refine ⟨pushOut (setMark st id .black) id, ?_,
              finish_TInv g st id hInv hnot hrefsO, ?_, ?_, ?_, ⟨[id], rfl⟩⟩
            · show visit g (fuel + 1) id st = _
              simp [visit, hm, hleaf]
            · intro x m hmm
              by_cases hx : id = x
              · subst hx; rw [hm] at hmm; simp at hmm
              · rw [getMark_pushOut, getMark_setMark_ne st id x _ hx]
                exact hmm
            · intro x hx
              by_cases hxi : id = x
              · subst hxi
                rw [getMark_pushOut, getMark_setMark_self] at hx
                simp at hx
              · rw [getMark_pushOut, getMark_setMark_ne st id x _ hxi] at hx
                exact hx
            · rw [getMark_pushOut]
              exact getMark_setMark_self _ _ _
          · have hsome : (aLookup g.complete id).isSome = true := by
              rcases hclass with h | h | h
              · exact h
              · exact absurd (Or.inl h) hleaf
              · exact absurd (Or.inr h) hleaf
            obtain ⟨refs₀, hlook⟩ := Option.isSome_iff_exists.mp hsome
            have hid_keys : id ∈ g.complete.map Prod.fst :=
              aLookup_isSome_mem_keys _ _ hsome
            have hcnt₁ :
                unmarkedCount g (setMark st id .grey) < fuel := by
              have hlt := unmarkedCount_setMark_lt g st id .grey hid_keys hm
              omega
            have hMB₁ : ∀ x,
                getMark (setMark st id .grey) x = some .black ↔
                  x ∈ (setMark st id .grey).output := by
              intro x
              by_cases hx : id = x
              · subst hx
                rw [getMark_setMark_self]
                show (some Mark.grey = some Mark.black) ↔ id ∈ st.output
                simp [hnot]
              · rw [getMark_setMark_ne st id x _ hx]
                exact hInv.1 x
            have hInv₁ : TInv g (setMark st id .grey) :=
              ⟨hMB₁, hInv.2.1, hInv.2.2⟩
            have hgreys₁ : ∀ x, getMark (setMark st id .grey) x = some .grey →
                x = id ∨ Relation.TransGen (edgeOf g) x id := by
              intro x hx
              by_cases hxi : x = id
              · exact Or.inl hxi
              · right
                rw [getMark_setMark_ne st id x _ (fun h => hxi h.symm)] at hx
                exact hgreys x hx
            obtain ⟨st', hrun, hI', hext', hgr', hb', hd'⟩ :=
              visitList_ok g Hclosed fuel ih refs₀ id refs₀
                (setMark st id .grey) hlook (fun b hb => hb)
                (fun b hb => Or.inl hb) hcnt₁ hInv₁
                (getMark_setMark_self _ _ _) hgreys₁
            refine ⟨st', ?_, hI', ?_, ?_, hb', ?_⟩
            · show visit g (fuel + 1) id st = (.okNone, st')
              simp only [visit, hm, if_neg hleaf, hlook]
              exact hrun
            · intro x m hmm
              by_cases hx : id = x
              · subst hx; rw [hm] at hmm; simp at hmm
              · refine hext' x m (fun h => hx h.symm) ?_
                rw [getMark_setMark_ne st id x _ hx]
                exact hmm
            · intro x hx
              obtain ⟨h1, h2⟩ := hgr' x hx
              rw [getMark_setMark_ne st id x _ (fun h => h2 h.symm)] at h1
              exact h1
            · obtain ⟨d, hd⟩ := hd'
              exact ⟨d, hd⟩

/-- Soundness of the root loop: from a grey-free invariant state, all
roots are driven to Black and the traversal succeeds. -/
theorem topsortRoots_ok (g : SolGraph)
    (Hdisj : ∀ x, (aLookup g.complete x).isSome = true →
        x ∉ g.dangling ∧ x ∉ g.incompatible)
    (Hclosed : ∀ a refs, aLookup g.complete a = some refs →
        ∀ b ∈ refs, classified g b)
    (Hacyc : Acyclic g) (fuel : Nat) :
    ∀ (roots : List ProjectId) (st : TState),
      (∀ r ∈ roots, classified g r) →
      TInv g st →
      (∀ x, getMark st x ≠ some .grey) →
      unmarkedCount g st < fuel →
      ∃ stF, topsortRoots g fuel roots st = .success stF.output.reverse
        ∧ TInv g stF
        ∧ MarksExtend st stF
        ∧ ∀ r ∈ roots, getMark stF r = some .black := by
  intro roots
  induction roots with
  | nil =>
      intro st _ hInv _ _
      exact ⟨st, rfl, hInv, marksExtend_refl st, by simp⟩
  | cons r rest ihr =>
      intro st hr hInv hng hcnt
      have hgreys : ∀ x, getMark st x = some .grey →
          Relation.TransGen (edgeOf g) x r :=
        fun x hx => absurd hx (hng x)
      obtain ⟨st₁, hvis, hInv₁, hext₁, hgreys₁, hbl₁, _⟩ :=
        visit_ok g Hdisj Hclosed Hacyc fuel r st hcnt (hr r (by simp))
          hInv hgreys
      have hng₁ : ∀ x, getMark st₁ x ≠ some .grey :=
        fun x hx => hng x (hgreys₁ x hx)
      have hcnt₁ : unmarkedCount g st₁ < fuel :=
        Nat.lt_of_le_of_lt (unmarkedCount_le g st st₁ hext₁) hcnt
      obtain ⟨stF, hres, hIF, hextF, hblF⟩ :=
        ihr st₁ (fun q hq => hr q (by simp [hq])) hInv₁ hng₁ hcnt₁
      refine ⟨stF, ?_, hIF, marksExtend_trans hext₁ hextF, ?_⟩
      · show topsortRoots g fuel (r :: rest) st = _
        rw [topsortRoots, hvis]
        exact hres
      · intro q hq
        rcases List.mem_cons.mp hq with rfl | hq2
        · exact hextF q .black hbl₁
        · exact hblF q hq2

/-- C1 (amended): for every acyclic explicit project-reference graph (as a
loaded Solution provides it: complete projects disjoint from
dangling/incompatible leaves, every referenced or root id classified,
every complete project reachable from the roots) and sufficient fuel,
topsort returns success with an order in which, for every edge A to B,
A occurs strictly before B - the reverse of the direction the claim
states. -/
theorem C1_topsort_amended (g : SolGraph) (fuel : Nat)
    (Hdisj : ∀ x, (aLookup g.complete x).isSome = true →
        x ∉ g.dangling ∧ x ∉ g.incompatible)
    (Hclosed : ∀ a refs, aLookup g.complete a = some refs →
        ∀ b ∈ refs, classified g b)
    (Hroots : ∀ r ∈ g.roots, classified g r)
    (Hacyc : Acyclic g)
    (Hreach : ∀ a, (aLookup g.complete a).isSome = true →
        ∃ r ∈ g.roots, Relation.ReflTransGen (edgeOf g) r a)
    (Hfuel : g.complete.length < fuel) :
    ∃ ret, topsort g fuel = .success ret
      ∧ ∀ a b, edgeOf g a b → beforeIn ret a b := by
  have hInv0 : TInv g ⟨[], []⟩ := by
    refine ⟨?_, by simp, ?_⟩
    · intro x
      simp [getMark, aLookup]
    · intro i hi
      simp at hi
  have hng0 : ∀ x, getMark (⟨[], []⟩ : TState) x ≠ some .grey := by
    intro x
    simp [getMark, aLookup]
  have hcnt0 : unmarkedCount g ⟨[], []⟩ < fuel := by
    have hle : unmarkedCount g ⟨[], []⟩ ≤ (g.complete.map Prod.fst).length :=
      List.countP_le_length _
    rw [List.length_map] at hle
    omega
  obtain ⟨stF, hres, hIF, _, hblF⟩ :=
    topsortRoots_ok g Hdisj Hclosed Hacyc fuel g.roots ⟨[], []⟩ Hroots
      hInv0 hng0 hcnt0
  obtain ⟨hMB, hND, hORD⟩ := hIF
  have hmem_of_reach : ∀ r a, r ∈ g.roots →
      Relation.ReflTransGen (edgeOf g) r a → a ∈ stF.output := by
    intro r a hr hpath
    induction hpath with
    | refl => exact (hMB r).mp (hblF r hr)
    | tail hp he ihp =>
        obtain ⟨refs, hlb, hcb⟩ := he
        obtain ⟨⟨i, hi⟩, hgi⟩ := List.mem_iff_get.mp ihp
        have htk := hORD i hi refs (by rw [hgi]; exact hlb)
        exact List.take_subset i stF.output (htk _ hcb)
  have hmemC : ∀ a, (aLookup g.complete a).isSome = true →
      a ∈ stF.output := by
    intro a ha
    obtain ⟨r, hr, hpath⟩ := Hreach a ha
    exact hmem_of_reach r a hr hpath
  refine ⟨stF.output.reverse, hres, ?_⟩
  intro a b hab
  obtain ⟨refs, hla, hbin⟩ := hab
  have haout : a ∈ stF.output := hmemC a (by rw [hla]; rfl)
  obtain ⟨⟨i, hi⟩, hgi⟩ := List.mem_iff_get.mp haout
  have hbtake : b ∈ stF.output.take i :=
    hORD i hi refs (by rw [hgi]; exact hla) b hbin
  have hbout : b ∈ stF.output := List.take_subset i stF.output hbtake
  have hpa : posOf stF.output a = i := by
    rw [← hgi]
    exact posOf_get stF.output hND i hi
  have hpb : posOf stF.output b < i := posOf_take stF.output b i hbtake
  have hra : posOf stF.output.reverse a = stF.output.length - 1 - i := by
    rw [posOf_reverse stF.output hND a haout, hpa]
  have hrb : posOf stF.output.reverse b
      = stF.output.length - 1 - posOf stF.output b :=
    posOf_reverse stF.output hND b hbout
  refine ⟨List.mem_reverse.mpr haout, List.mem_reverse.mpr hbout, ?_⟩
  rw [hra, hrb]
  omega

/-- The only edge of the two-project witness graph runs from A to B. -/
theorem gTop_edge_shape (u v : ProjectId) (h : edgeOf gTop u v) :
    u = pIdA ∧ v = pIdB := by
  obtain ⟨refs, hl, hv⟩ := h
  simp only [gTop, aLookup] at hl
  split_ifs at hl with h1 h2
  · obtain rfl : [pIdB] = refs := by injection hl
    simp at hv
    exact ⟨h1.symm, hv⟩
  · obtain rfl : ([] : List ProjectId) = refs := by injection hl
    simp at hv

/-- Witness for the amended C1 on the concrete two-project graph. -/
theorem C1_topsort_amended_witness :
    (gTop.complete.length < 4)
    ∧ ∃ ret, topsort gTop 4 = .success ret
        ∧ ∀ a b, edgeOf gTop a b → beforeIn ret a b := by
  refine ⟨by decide, ?_⟩
  apply C1_topsort_amended
  · intro x _
    exact ⟨by simp [gTop], by simp [gTop]⟩
  · intro a refs h b hb
    simp only [gTop, aLookup] at h
    split_ifs at h with h1 h2
    · obtain rfl : [pIdB] = refs := by injection h
      simp at hb
      subst hb
      exact Or.inl (by decide)
    · obtain rfl : ([] : List ProjectId) = refs := by injection h
      simp at hb
  · intro r hr
    simp only [gTop, List.mem_singleton] at hr
    subst hr
    exact Or.inl (by decide)
  · intro x hx
    have hnB : ∀ y, ¬ Relation.TransGen (edgeOf gTop) pIdB y := by
      intro y hy
      induction hy with
      | single h => exact absurd (gTop_edge_shape _ _ h).1 (by decide)
      | tail hp he ih => exact ih
    cases hx with
    | single h =>
        obtain ⟨h1, h2⟩ := gTop_edge_shape _ _ h
        exact absurd (h1 ▸ h2) (by decide)
    | tail hp he =>
        obtain ⟨h1, h2⟩ := gTop_edge_shape _ _ he
        subst h2
        exact hnB _ hp
  · intro a ha
    have hcase : a = pIdA ∨ a = pIdB := by
      simp only [gTop, aLookup] at ha
      split_ifs at ha with h1 h2
      · exact Or.inl h1.symm
      · exact Or.inr h2.symm
      · simp at ha
    rcases hcase with rfl | rfl
    · exact ⟨pIdA, by simp [gTop], Relation.ReflTransGen.refl⟩
    · exact ⟨pIdA, by simp [gTop],
        Relation.ReflTransGen.single ⟨[pIdB], by decide, by decide⟩⟩
  · decide

end CsSol
